import Mathlib

/-!
A verification development for the `bbe_reader_again` blackbox-log reader
(`src/main.rs`).  The Rust source is shallowly embedded: byte buffers are
`List Nat` (each element a byte value `< 256`), header lines are `List Char`,
`u32`/`i32` arithmetic is `Nat`/`Int` with explicit `% 2^32` truncation, and
the cursor threaded through the decoders becomes an explicit
position-in/position-out value.

Arithmetic overflow (left-shift with a shift amount `≥ 32`, and
`i32::MIN.abs()`) is a program error in Rust; the embedding models the
overflow-checked behaviour of the default (dev) profile, in which such an
operation panics.  Panics are modelled with `Except String` / the `panic`
constructor of `RunOut`; fallible code never silently continues past a panic.
-/

/-- Result of running `decode_binary_data`: a normal result, a panic with its
message, or `spin` when the `while` loop fails to terminate within the
supplied fuel (used to exhibit non-termination: a run that equals `spin` for
every fuel never finishes). -/
inductive RunOut (α : Type) where
  | ok : α → RunOut α
  | panic : String → RunOut α
  | spin : RunOut α
deriving DecidableEq, Repr

/-- Loop body of `read_unsigned_vlq` (src/main.rs:294-315), acting on the
unread suffix `data[cursor..]` of the buffer.  Returns the accumulated value
and the number of bytes consumed, or the shift-overflow panic: in the source,
`value |= (byte & 0x7F) << shift` executes a `u32` shift whose amount grows by
7 per continuation byte, and a shift amount `≥ 32` is an arithmetic overflow
(the overflow-checked build panics there).  Bits shifted beyond bit 31 are
discarded (`% 2^32`), as `u32` shl does. -/
def uvlqLoop : List Nat → Nat → Nat → Except String (Nat × Nat)
  | [], value, _ => .ok (value, 0)
  | byte :: rest, value, shift =>
    if 32 ≤ shift then .error "attempt to shift left with overflow"
    else
      let value' := value ||| (((byte &&& 0x7F) <<< shift) % 2 ^ 32)
      if byte &&& 0x80 == 0 then .ok (value', 1)
      else
        match uvlqLoop rest value' (shift + 7) with
        | .ok (v, n) => .ok (v, n + 1)
        | .error e => .error e

/-- Embedding of `read_unsigned_vlq` (src/main.rs:294-315).  The Rust
function reads `data` at `*cursor` and advances the cursor; here the loop
runs on the unread suffix `data.drop cursor` and the consumed-byte count is
added back onto the cursor.  If the cursor is already at (or past) the end of
the buffer the loop body exits immediately, returning `0` and leaving the
cursor unchanged. -/
def read_unsigned_vlq (data : List Nat) (cursor : Nat) : Except String (Nat × Nat) :=
  match uvlqLoop (data.drop cursor) 0 0 with
  | .ok (v, n) => .ok (v, cursor + n)
  | .error e => .error e

/-- Embedding of `read_signed_vlq` (src/main.rs:281-291): decode an unsigned
VLQ, then take bit 0 as the sign and `value >> 1` as the magnitude. -/
def read_signed_vlq (data : List Nat) (cursor : Nat) : Except String (Int × Nat) :=
  match read_unsigned_vlq data cursor with
  | .ok (value, c) =>
    let sign : Nat := value &&& 1
    let magnitude : Int := (value >>> 1 : Nat)
    .ok (if sign != 0 then -magnitude else magnitude, c)
  | .error e => .error e

/-- Modelled from the spec: the encoder half of the round-trip property in
§8 is not part of the repository, so the zig-zag step is taken from the
spec's words ("bit 0 of the raw value is the sign bit, the remaining bits
(value `>> 1`) are the magnitude; result is `-magnitude` if the sign bit is
set"): a non-negative `v` maps to `2*v`, a negative `v` to `2*(-v) + 1`. -/
def zigzag_encode (v : Int) : Nat :=
  if v < 0 then 2 * (-v).toNat + 1 else 2 * v.toNat

/-- Modelled from the spec: the continuation-bit encoder half of the §8
round-trip property ("each byte contributes 7 payload bits plus one
continuation bit", continuation bit = `0x80`, low groups first). -/
def encode_unsigned_vlq (u : Nat) : List Nat :=
  if u < 128 then [u] else (u % 128 + 128) :: encode_unsigned_vlq (u / 128)
termination_by u
decreasing_by exact Nat.div_lt_self (by omega) (by omega)

/-- Modelled from the spec: full signed encoder, zig-zag then unsigned VLQ. -/
def encode_signed_vlq (v : Int) : List Nat :=
  encode_unsigned_vlq (zigzag_encode v)

/-- Reinterpretation `u32 as i32` (src/main.rs:247): a wrapping cast, never a
panic. -/
def as_i32 (u : Nat) : Int :=
  if u < 2 ^ 31 then (u : Int) else (u : Int) - 2 ^ 32

/-- Embedding of `i32::abs` as used at src/main.rs:243 and 251:
`i32::MIN.abs()` is an arithmetic overflow (the overflow-checked build
panics); every other value maps to its absolute value. -/
def abs_i32 (v : Int) : Except String Int :=
  if v = -(2 ^ 31) then .error "attempt to negate with overflow"
  else .ok (if v < 0 then -v else v)

/-- The per-field value transformation of `decode_binary_data`
(src/main.rs:237-258): `if signed { val } else { val.abs() }`.  The returned
value is the one appended to the in-progress record. -/
def fieldValue (signed : Bool) (val : Int) : Except String Int :=
  if signed then .ok val else abs_i32 val

/-- ASCII whitespace recognised by `str::trim` on the all-ASCII header lines
this program produces (the Unicode `White_Space` property restricted to
ASCII: tab, LF, VT, FF, CR, space). -/
def isWS (c : Char) : Bool :=
  c == ' ' || c == '\t' || c == '\n' || c == '\r' || c == Char.ofNat 11 || c == Char.ofNat 12

/-- Embedding of `str::trim`: drop whitespace from both ends. -/
def trimL (s : List Char) : List Char :=
  ((s.dropWhile isWS).reverse.dropWhile isWS).reverse

/-- Embedding of `str::split(',')`: split on every comma; an empty input
yields one empty piece, like Rust's `"".split(',')`. -/
def splitOnComma : List Char → List (List Char)
  | [] => [[]]
  | c :: rest =>
    match splitOnComma rest, c == ',' with
    | r, true => [] :: r
    | [], false => [[c]]
    | x :: xs, false => (c :: x) :: xs

/-- The `.split(',').map(|s| s.trim())` idiom shared by the schema parser and
the record decoder. -/
def splitTrim (s : List Char) : List (List Char) :=
  (splitOnComma s).map trimL

/-- Digit-accumulation core of `str::parse::<u8>`. -/
def parseDigits : List Char → Nat → Option Nat
  | [], acc => some acc
  | c :: rest, acc =>
    if c.isDigit then parseDigits rest (acc * 10 + (c.toNat - 48)) else none

/-- Embedding of `str::parse::<u8>()`: optional leading `+`, then at least
one ASCII digit, value at most 255; anything else is a parse error (the
callers apply `.unwrap_or(0)`). -/
def parseU8 (s : List Char) : Option Nat :=
  let t := match s with | '+' :: rest => rest | _ => s
  match t with
  | [] => none
  | _ =>
    match parseDigits t 0 with
    | some n => if n < 256 then some n else none
    | none => none

/-- Header-line literal `"H Field I name:"`. -/
def pfxName : List Char := "H Field I name:".toList

/-- Header-line literal `"H Field I encoding:"`. -/
def pfxEnc : List Char := "H Field I encoding:".toList

/-- Header-line literal `"H Field I signed:"`. -/
def pfxSigned : List Char := "H Field I signed:".toList

/-- Header-line literal `"H Field I predictor:"`. -/
def pfxPred : List Char := "H Field I predictor:".toList

/-- Embedding of the `FieldDefinition` struct (src/main.rs:17-23). -/
structure FieldDefinition where
  name : List Char
  encoding : Nat
  signed : Bool
  predictor : Nat
deriving DecidableEq, Repr

/-- One iteration of the header loop in `parse_field_definitions`
(src/main.rs:134-156): an `if`/`else if` chain that overwrites one of the
four attribute lists whenever the line carries the matching prefix, so a
later matching line replaces the value from an earlier one. -/
def parseStep (acc : List (List Char) × List Nat × List Bool × List Nat)
    (header : List Char) : List (List Char) × List Nat × List Bool × List Nat :=
  if pfxName.isPrefixOf header then
    (splitTrim (header.drop pfxName.length), acc.2.1, acc.2.2.1, acc.2.2.2)
  else if pfxEnc.isPrefixOf header then
    (acc.1, (splitTrim (header.drop pfxEnc.length)).map (fun s => (parseU8 s).getD 0),
      acc.2.2.1, acc.2.2.2)
  else if pfxSigned.isPrefixOf header then
    (acc.1, acc.2.1, (splitTrim (header.drop pfxSigned.length)).map (fun s => s == ['1']),
      acc.2.2.2)
  else if pfxPred.isPrefixOf header then
    (acc.1, acc.2.1, acc.2.2.1,
      (splitTrim (header.drop pfxPred.length)).map (fun s => (parseU8 s).getD 0))
  else acc

/-- The four attribute lists accumulated by the header loop of
`parse_field_definitions`, starting from four empty vectors. -/
def parseHeaderLists (headers : List (List Char)) :
    List (List Char) × List Nat × List Bool × List Nat :=
  headers.foldl parseStep ([], [], [], [])

/-- Embedding of the `field_names.into_iter().enumerate().map(..)` zip at
src/main.rs:158-168: one `FieldDefinition` per name, the other three lists
read by total `Option` lookup (`.get(i).unwrap_or(default)`); `i` is the
running enumeration index. -/
def combineFields (encs : List Nat) (sgns : List Bool) (preds : List Nat) :
    List (List Char) → Nat → List FieldDefinition
  | [], _ => []
  | n :: rest, i =>
    { name := n, encoding := encs.getD i 0, signed := sgns.getD i false,
      predictor := preds.getD i 0 } :: combineFields encs sgns preds rest (i + 1)

/-- Embedding of `parse_field_definitions` (src/main.rs:128-169). -/
def parse_field_definitions (headers : List (List Char)) : List FieldDefinition :=
  let lists := parseHeaderLists headers
  combineFields lists.2.1 lists.2.2.1 lists.2.2.2 lists.1 0

/-- The `HashMap<String, FieldDefinition>` built in `main`
(src/main.rs:100-103); `collect` on an iterator of pairs keeps the last
insertion for a duplicated key, hence the lookup searches the reversed
list. -/
def mkFieldMap (defs : List FieldDefinition) : List (List Char × FieldDefinition) :=
  defs.map (fun f => (f.name, f))

/-- `HashMap::get`: the value of the last inserted pair with the given key. -/
def hashMapGet (m : List (List Char × FieldDefinition)) (k : List Char) :
    Option FieldDefinition :=
  List.lookup k m.reverse

/-- The inner `for field_name in desired_fields` loop of `decode_binary_data`
(src/main.rs:217-268).  For each desired field: find its index in the name
list (`position`); direct `Vec` indexing into the three attribute lists (an
out-of-range index is a panic); parse encoding and predictor with
`.unwrap_or(0)`; check the field map; require one byte of input; dispatch on
the encoding (0 = signed VLQ, 1 = unsigned VLQ, anything else invalidates the
record); apply the signed/abs transformation and append.  Any failure path
`break`s with `valid_record = false` and the bytes consumed so far kept.
Returns `(record, valid_record, cursor)` or a panic. -/
def decodeFields (data : List Nat) (names encs sgns preds : List (List Char))
    (fieldMap : List (List Char × FieldDefinition)) :
    List (List Char) → Nat → List Int → Except String (List Int × Bool × Nat)
  | [], cursor, record => .ok (record, true, cursor)
  | fname :: rest, cursor, record =>
    match List.findIdx? (fun r => r == fname) names with
    | none => .ok (record, false, cursor)
    | some index =>
      if he : index < encs.length then
        let encoding : Nat := (parseU8 (encs.get ⟨index, he⟩)).getD 0
        if hs : index < sgns.length then
          let signed : Bool := sgns.get ⟨index, hs⟩ == ['1']
          if hp : index < preds.length then
            let _predictor : Nat := (parseU8 (preds.get ⟨index, hp⟩)).getD 0
            match hashMapGet fieldMap fname with
            | none => .ok (record, false, cursor)
            | some _field =>
              let bytes_needed := 1
              if cursor + bytes_needed > data.length then .ok (record, false, cursor)
              else
                match encoding with
                | 0 =>
                  match read_signed_vlq data cursor with
                  | .ok (val, cursor') =>
                    match fieldValue signed val with
                    | .ok v =>
                      decodeFields data names encs sgns preds fieldMap rest cursor'
                        (record ++ [v])
                    | .error e => .error e
                  | .error e => .error e
                | 1 =>
                  match read_unsigned_vlq data cursor with
                  | .ok (u, cursor') =>
                    match fieldValue signed (as_i32 u) with
                    | .ok v =>
                      decodeFields data names encs sgns preds fieldMap rest cursor'
                        (record ++ [v])
                    | .error e => .error e
                  | .error e => .error e
                | _ => .ok (record, false, cursor)
          else .error "index out of bounds"
        else .error "index out of bounds"
      else .error "index out of bounds"

/-- The `while cursor < data.len()` loop of `decode_binary_data`
(src/main.rs:213-275), run with explicit fuel: each loop iteration consumes
one unit, so a run that is `spin` for every fuel is an infinite loop.  A
record is written (here: appended to `acc`) exactly when it is valid and has
one value per desired field; the CSV writer itself is modelled as an
always-successful sink.  Records are the decoded `i32` values (the source
stringifies each value as it is pushed). -/
def decodeLoop (data : List Nat) (names encs sgns preds : List (List Char))
    (fieldMap : List (List Char × FieldDefinition)) (desired : List (List Char)) :
    Nat → Nat → List (List Int) → RunOut (List (List Int))
  | 0, _, _ => .spin
  | fuel + 1, cursor, acc =>
    if cursor < data.length then
      match decodeFields data names encs sgns preds fieldMap desired cursor [] with
      | .error e => .panic e
      | .ok (record, valid, cursor') =>
        let acc' := if valid && (record.length == desired.length) then acc ++ [record] else acc
        decodeLoop data names encs sgns preds fieldMap desired fuel cursor' acc'
    else .ok acc

/-- Embedding of `decode_binary_data` (src/main.rs:172-278).  Before the
record loop, the function re-derives the four attribute string lists itself:
for each of the four prefixes it takes the **first** matching header line
(`Iterator::find`) and panics (`expect`) when there is none. -/
def decode_binary_data (fuel : Nat) (data : List Nat)
    (fieldMap : List (List Char × FieldDefinition)) (desired : List (List Char))
    (headers : List (List Char)) : RunOut (List (List Int)) :=
  match headers.find? (fun h => pfxName.isPrefixOf h) with
  | none => .panic "H Field I name: header not found"
  | some nameLine =>
    let field_names := splitTrim (nameLine.drop pfxName.length)
    match headers.find? (fun h => pfxEnc.isPrefixOf h) with
    | none => .panic "H Field I encoding: header not found"
    | some encLine =>
      let encoding_types := splitTrim (encLine.drop pfxEnc.length)
      match headers.find? (fun h => pfxSigned.isPrefixOf h) with
      | none => .panic "H Field I signed: header not found"
      | some sgnLine =>
        let signed_types := splitTrim (sgnLine.drop pfxSigned.length)
        match headers.find? (fun h => pfxPred.isPrefixOf h) with
        | none => .panic "H Field I predictor: header not found"
        | some predLine =>
          let predictor_types := splitTrim (predLine.drop pfxPred.length)
          decodeLoop data field_names encoding_types signed_types predictor_types
            fieldMap desired fuel 0 []

/-- Embedding of `reader.read_until(b'\n', ..)` (src/main.rs:61): the bytes
up to and including the first `0x0A`, or everything when no newline remains,
paired with the unread rest of the input. -/
def readLine : List Nat → List Nat × List Nat
  | [] => ([], [])
  | b :: rest =>
    if b == 10 then ([b], rest)
    else
      match readLine rest with
      | (line, r) => (b :: line, r)

theorem readLine_rest_length_le (l : List Nat) : (readLine l).2.length ≤ l.length := by
  induction l with
  | nil => simp [readLine]
  | cons b rest ih =>
    simp only [readLine]
    by_cases hb : (b == 10) = true
    · simp [hb]
    · simp only [hb, if_neg, Bool.false_eq_true, not_false_iff, if_false]
      cases h : readLine rest with
      | mk line r => simp only [h] at ih ⊢; simp [Nat.le_succ_of_le ih]

theorem readLine_rest_length_lt (b : Nat) (rest : List Nat) :
    (readLine (b :: rest)).2.length < (b :: rest).length := by
  simp only [readLine]
  by_cases hb : (b == 10) = true
  · simp [hb, Nat.lt_succ_of_le (Nat.le_refl _)]
  · simp only [hb, Bool.false_eq_true, not_false_iff, if_false]
    cases h : readLine rest with
    | mk line r =>
      have := readLine_rest_length_le rest
      rw [h] at this
      simpa using Nat.lt_succ_of_le this

/-- Embedding of the header scan in `main` (src/main.rs:58-75 together with
the payload read at src/main.rs:116-117): read a line; at end of input stop
with an empty payload; if every byte of the line is ASCII (`< 128`), store
the line (decoded and trimmed) as a header and continue; otherwise stop — the
payload is what remains **after** the offending line, whose bytes were
already consumed from the reader and are not part of `buffer`. -/
def headerScan (input : List Nat) : List (List Char) × List Nat :=
  match input with
  | [] => ([], [])
  | b :: rest =>
    let line := (readLine (b :: rest)).1
    let r := (readLine (b :: rest)).2
    if line.all (fun byte => byte < 128) then
      (trimL (line.map (fun byte => Char.ofNat byte)) :: (headerScan r).1, (headerScan r).2)
    else ([], r)
termination_by input.length
decreasing_by
all_goals simpa using readLine_rest_length_lt b rest


theorem uvlqLoop_cons (b : Nat) (rest : List Nat) (value shift : Nat) :
    uvlqLoop (b :: rest) value shift =
      if 32 ≤ shift then .error "attempt to shift left with overflow"
      else
        if b &&& 0x80 == 0 then .ok (value ||| ((b &&& 0x7F) <<< shift) % 2 ^ 32, 1)
        else
          match uvlqLoop rest (value ||| ((b &&& 0x7F) <<< shift) % 2 ^ 32) (shift + 7) with
          | .ok (v, n) => .ok (v, n + 1)
          | .error e => .error e := rfl

theorem uvlqLoop_encode (u : Nat) : ∀ value shift : Nat, 7 ∣ shift → shift ≤ 28 →
    u < 2 ^ (32 - shift) → value < 2 ^ shift →
    uvlqLoop (encode_unsigned_vlq u) value shift =
      .ok (value + u * 2 ^ shift, (encode_unsigned_vlq u).length) := by
  induction u using Nat.strong_induction_on with
  | _ u ih =>
    intro value shift h7 h28 hu hv
    have hsh : ¬ 32 ≤ shift := by omega
    have hpow : (2 : Nat) ^ (32 - shift) * 2 ^ shift = 2 ^ 32 := by
      rw [← pow_add]; congr 1; omega
    rw [encode_unsigned_vlq]
    by_cases h : u < 128
    · rw [if_pos h, uvlqLoop_cons, if_neg hsh]
      have hand7F : u &&& 0x7F = u := by
        have := Nat.and_pow_two_sub_one_of_lt_two_pow (n := 7) (x := u) (by omega)
        simpa using this
      have hstop : (u &&& 0x80 == 0) = true := by
        have h0 : u &&& 2 ^ 7 = 0 := by
          rw [Nat.and_two_pow, Nat.testBit_lt_two_pow (by omega)]
          simp
        norm_num at h0
        simp [h0]
      have hmul : u * 2 ^ shift < 2 ^ 32 := by
        have h1 : u * 2 ^ shift < 2 ^ (32 - shift) * 2 ^ shift :=
          (Nat.mul_lt_mul_right (by positivity)).mpr hu
        rw [hpow] at h1
        exact h1
      have hlor : value ||| u * 2 ^ shift = value + u * 2 ^ shift := by
        have h0 := Nat.mul_add_lt_is_or (i := shift) (b := value) hv u
        rw [Nat.lor_comm, mul_comm u (2 ^ shift)]
        linarith [h0]
      rw [if_pos hstop, hand7F, Nat.shiftLeft_eq, Nat.mod_eq_of_lt hmul, hlor]
      simp
    · rw [if_neg h, uvlqLoop_cons, if_neg hsh]
      push_neg at h
      have hs21 : shift ≤ 21 := by
        have h27 : (2 : Nat) ^ 7 ≤ u := by omega
        have hlt : (2 : Nat) ^ 7 < 2 ^ (32 - shift) := Nat.lt_of_le_of_lt h27 hu
        have h7lt : 7 < 32 - shift := (Nat.pow_lt_pow_iff_right (by omega)).mp hlt
        omega
      have hand7F : (u % 128 + 128) &&& 0x7F = u % 128 := by
        have := Nat.and_pow_two_sub_one_eq_mod (u % 128 + 128) 7
        norm_num at this
        omega
      have hcont : ((u % 128 + 128) &&& 0x80 == 0) = false := by
        have hb : (u % 128 + 128).testBit 7 = true := by
          have h0 : (2 ^ 7 * 1 + u % 128).testBit 7
              = (decide ((1 : Nat) % 2 = 1) ^^ (u % 128).testBit 7) :=
            Nat.testBit_mul_two_pow_add_eq 1 (u % 128) 7
          rw [Nat.testBit_lt_two_pow (x := u % 128) (by omega)] at h0
          have heq : 2 ^ 7 * 1 + u % 128 = u % 128 + 128 := by omega
          rw [heq] at h0
          simpa using h0
        have h1 : (u % 128 + 128) &&& 2 ^ 7 = 2 ^ 7 := by
          rw [Nat.and_two_pow, hb]; simp
        norm_num at h1
        simp [h1]
      have h2s : (2 : Nat) ^ shift ≤ 2 ^ 21 := Nat.pow_le_pow_right (by omega) hs21
      have hmul : u % 128 * 2 ^ shift < 2 ^ 32 := by
        have h1 : u % 128 * 2 ^ shift ≤ 127 * 2 ^ 21 := Nat.mul_le_mul (by omega) h2s
        calc u % 128 * 2 ^ shift ≤ 127 * 2 ^ 21 := h1
          _ < 2 ^ 32 := by norm_num
      have hlor : value ||| u % 128 * 2 ^ shift = value + u % 128 * 2 ^ shift := by
        have h0 := Nat.mul_add_lt_is_or (i := shift) (b := value) hv (u % 128)
        rw [Nat.lor_comm, mul_comm (u % 128) (2 ^ shift)]
        linarith [h0]
      have hvalue' : value + u % 128 * 2 ^ shift < 2 ^ (shift + 7) := by
        have h1 : u % 128 * 2 ^ shift ≤ 127 * 2 ^ shift :=
          Nat.mul_le_mul_right (2 ^ shift) (by omega)
        have h2 : (2 : Nat) ^ shift + 127 * 2 ^ shift = 2 ^ (shift + 7) := by
          rw [pow_add]; ring
        linarith [hv, h1, h2]
      have hdiv : u / 128 < 2 ^ (32 - (shift + 7)) := by
        rw [show (128 : Nat) = 2 ^ 7 by norm_num, Nat.div_lt_iff_lt_mul (by positivity)]
        calc u < 2 ^ (32 - shift) := hu
          _ = 2 ^ (32 - (shift + 7)) * 2 ^ 7 := by rw [← pow_add]; congr 1; omega
      have hih := ih (u / 128) (Nat.div_lt_self (by omega) (by omega))
        (value + u % 128 * 2 ^ shift) (shift + 7) (by omega) (by omega) hdiv hvalue'
      rw [if_neg (by simp [hcont]), hand7F, Nat.shiftLeft_eq, Nat.mod_eq_of_lt hmul, hlor, hih]
      have harith : value + u % 128 * 2 ^ shift + u / 128 * 2 ^ (shift + 7)
          = value + u * 2 ^ shift := by
        have h128 : (2 : Nat) ^ (shift + 7) = 2 ^ shift * 128 := by
          rw [pow_add]; norm_num
        rw [h128]
        have hdm : u % 128 + u / 128 * 128 = u := Nat.mod_add_div' u 128
        calc value + u % 128 * 2 ^ shift + u / 128 * (2 ^ shift * 128)
            = value + (u % 128 + u / 128 * 128) * 2 ^ shift := by ring
          _ = value + u * 2 ^ shift := by rw [hdm]
      rw [harith]
      simp

theorem read_unsigned_vlq_encode (u : Nat) (hu : u < 2 ^ 32) :
    read_unsigned_vlq (encode_unsigned_vlq u) 0 =
      .ok (u, (encode_unsigned_vlq u).length) := by
  have h := uvlqLoop_encode u 0 0 ⟨0, rfl⟩ (by omega) (by simpa using hu) (by norm_num)
  rw [read_unsigned_vlq, List.drop_zero, h]
  simp

/-- C3: for every signed 32-bit integer `v` in the representable range (no
overflow beyond 32 accumulated bits, which excludes exactly `i32::MIN`, whose
zig-zag image `2^32 + 1` needs 33 bits), encoding `v` with the
zig-zag-plus-continuation-bit scheme and decoding the bytes with
`read_signed_vlq` starting at cursor 0 yields exactly `v` and consumes the
whole encoding: `read_signed_vlq` is a left inverse of the zig-zag VLQ
encoder on that range. -/
theorem signed_vlq_roundtrip (v : Int) (h1 : -(2 ^ 31) < v) (h2 : v < 2 ^ 31) :
    read_signed_vlq (encode_signed_vlq v) 0 =
      .ok (v, (encode_signed_vlq v).length) := by
  have hz : zigzag_encode v < 2 ^ 32 := by
    rw [zigzag_encode]
    split <;> omega
  have hr := read_unsigned_vlq_encode (zigzag_encode v) hz
  rw [encode_signed_vlq] at *
  rw [read_signed_vlq, hr]
  dsimp only
  by_cases hv : v < 0
  · have hzz : zigzag_encode v = 2 * (-v).toNat + 1 := by rw [zigzag_encode, if_pos hv]
    rw [hzz]
    have hodd : (2 * (-v).toNat + 1) &&& 1 = 1 := by
      rw [Nat.and_one_is_mod]; omega
    have hhalf : (2 * (-v).toNat + 1) >>> 1 = (-v).toNat := by
      rw [Nat.shiftRight_eq_div_pow]; omega
    rw [hodd, hhalf]
    simp only [bne_iff_ne, ne_eq, one_ne_zero, not_false_iff, if_true]
    have : ((-v).toNat : Int) = -v := Int.toNat_of_nonneg (by omega)
    rw [this]
    simp
  · have hzz : zigzag_encode v = 2 * v.toNat := by rw [zigzag_encode, if_neg hv]
    rw [hzz]
    have heven : (2 * v.toNat) &&& 1 = 0 := by
      rw [Nat.and_one_is_mod]; omega
    have hhalf : (2 * v.toNat) >>> 1 = v.toNat := by
      rw [Nat.shiftRight_eq_div_pow]; omega
    rw [heven, hhalf]
    simp only [bne_self_eq_false, Bool.false_eq_true, if_false]
    have : (v.toNat : Int) = v := Int.toNat_of_nonneg (by omega)
    rw [this]

theorem uvlqLoop_all_high : ∀ (l : List Nat) (value shift : Nat),
    (∀ b ∈ l, b &&& 0x80 ≠ 0) → shift + 7 * l.length ≤ 35 →
    ∃ v, uvlqLoop l value shift = .ok (v, l.length) := by
  intro l
  induction l with
  | nil => intro value shift _ _; exact ⟨value, rfl⟩
  | cons b t ih =>
    intro value shift hb hs
    have hsh : ¬ 32 ≤ shift := by
      simp only [List.length_cons] at hs; omega
    have hbb : (b &&& 0x80 == 0) = false := by
      have := hb b (List.mem_cons_self b t)
      simpa using this
    obtain ⟨v, hv⟩ := ih (value ||| ((b &&& 0x7F) <<< shift) % 2 ^ 32) (shift + 7)
      (fun x hx => hb x (List.mem_cons_of_mem b hx))
      (by simp only [List.length_cons] at hs; omega)
    refine ⟨v, ?_⟩
    simp only [uvlqLoop, if_neg hsh, hbb, Bool.false_eq_true, if_false, hv]
    simp [List.length_cons]

/-- C8 (amended): `read_unsigned_vlq` never reads out of bounds.  A
pathological run of continuation bytes (high bit `0x80` set) reaching the end
of the buffer advances the cursor to end-of-buffer and returns the
accumulated value provided the run consumes at most five bytes (so every
shift amount stays below 32); and when the cursor is already at or past
end-of-buffer it returns `0` without consuming anything.  The original
claim's "more than five" case instead panics in the overflow-checked build
(see the counterexample: the sixth byte shifts by `35 ≥ 32`). -/
theorem read_unsigned_vlq_bounded_run (data : List Nat) (cursor : Nat) :
    (cursor ≤ data.length →
      (∀ b ∈ data.drop cursor, b &&& 0x80 ≠ 0) →
      data.length - cursor ≤ 5 →
      ∃ v, read_unsigned_vlq data cursor = .ok (v, data.length)) ∧
    (data.length ≤ cursor → read_unsigned_vlq data cursor = .ok (0, cursor)) := by
  constructor
  · intro hc hb h5
    obtain ⟨v, hv⟩ := uvlqLoop_all_high (data.drop cursor) 0 0 hb
      (by simp only [List.length_drop]; omega)
    refine ⟨v, ?_⟩
    rw [read_unsigned_vlq, hv]
    simp only [List.length_drop]
    have hadd : cursor + (data.length - cursor) = data.length := by omega
    rw [hadd]
  · intro h
    rw [read_unsigned_vlq, List.drop_eq_nil_of_le h]
    rfl

/-- C8 counterexample: six continuation bytes make the shift amount reach
35, and the `u32` left shift with an amount `≥ 32` is an arithmetic overflow
— the overflow-checked build panics rather than running to end-of-buffer and
returning the accumulated value as the claim states. -/
theorem read_unsigned_vlq_six_continuation_panics :
    read_unsigned_vlq [0x80, 0x80, 0x80, 0x80, 0x80, 0x80] 0 =
      .error "attempt to shift left with overflow" := rfl

/-- C8 witness: a three-byte all-high-bit run decodes to end-of-buffer
position 3, and a cursor already at end-of-buffer returns `(0, cursor)`. -/
theorem read_unsigned_vlq_bounded_run_witness :
    (0 ≤ [0x80, 0x81, 0xFF].length ∧ ([0x80, 0x81, 0xFF].length - 0 ≤ 5)) ∧
    (∃ v, read_unsigned_vlq [0x80, 0x81, 0xFF] 0 = .ok (v, 3)) ∧
    read_unsigned_vlq [0x13] 1 = .ok (0, 1) :=
  ⟨⟨by decide, by decide⟩,
    (read_unsigned_vlq_bounded_run [0x80, 0x81, 0xFF] 0).1 (by decide) (by decide) (by decide),
    (read_unsigned_vlq_bounded_run [0x13] 1).2 (by decide)⟩

/-- C4: for every raw unsigned value `u` produced by the unsigned-VLQ
decode, `read_signed_vlq` returns `-(u >> 1)` if bit 0 of `u` is set, else
`u >> 1` (with the same final cursor); concretely, the single byte `0x03`
(continuation bit clear) decodes to the signed value `-1`. -/
theorem read_signed_vlq_zigzag_spec :
    (∀ (data : List Nat) (cursor u c : Nat),
      read_unsigned_vlq data cursor = .ok (u, c) →
      read_signed_vlq data cursor =
        .ok (if u % 2 = 1 then -((u / 2 : Nat) : Int) else ((u / 2 : Nat) : Int), c)) ∧
    read_signed_vlq [0x03] 0 = .ok (-1, 1) := by
  constructor
  · intro data cursor u c h
    rw [read_signed_vlq, h]
    dsimp only
    rw [Nat.and_one_is_mod, Nat.shiftRight_eq_div_pow, pow_one]
    rcases Nat.mod_two_eq_zero_or_one u with h2 | h2 <;> simp [h2]
  · rfl

/-- C4 witness: byte `0x05` decodes unsigned to raw `5`; `5` is odd, so the
signed decode is `-(5 >> 1) = -2`. -/
theorem read_signed_vlq_zigzag_spec_witness :
    read_unsigned_vlq [0x05] 0 = .ok (5, 1) ∧ read_signed_vlq [0x05] 0 = .ok (-2, 1) := by
  refine ⟨rfl, ?_⟩
  have h := read_signed_vlq_zigzag_spec.1 [0x05] 0 5 1 rfl
  simpa using h

/-- C10: for every decoded field whose signed flag is false, the value
appended to the output record (`fieldValue`, the `if signed { val } else
{ val.abs() }` of src/main.rs:237-258) is the absolute value of the raw
decode reinterpreted as `i32` — hence never negative — and this
transformation is total exactly when that raw `i32` is not `i32::MIN`
(`i32::MIN.abs()` is an arithmetic overflow and panics); when the signed
flag is true the raw decoded value is emitted unchanged.  The final conjunct
records that `as_i32` (the `u32 as i32` reinterpretation feeding
`fieldValue` on encoding 1) is the identity below `2^31`. -/
theorem unsigned_flag_abs_value (v : Int) :
    fieldValue true v = .ok v ∧
    (v ≠ -(2 ^ 31) →
      fieldValue false v = .ok (if v < 0 then -v else v) ∧ 0 ≤ if v < 0 then -v else v) ∧
    (v = -(2 ^ 31) → fieldValue false v = .error "attempt to negate with overflow") ∧
    (∀ u : Nat, u < 2 ^ 31 → as_i32 u = (u : Int)) := by
  refine ⟨rfl, ?_, ?_, ?_⟩
  · intro hne
    constructor
    · rw [fieldValue, abs_i32, if_neg (by simp), if_neg hne]
    · split <;> omega
  · intro he
    rw [fieldValue, abs_i32, if_neg (by simp), if_pos he]
  · intro u hu
    rw [as_i32, if_pos (by exact_mod_cast hu)]

/-- C10 witness: raw `-7` with signed flag false is emitted as `7`; raw
`i32::MIN` panics with the negation-overflow message. -/
theorem unsigned_flag_abs_value_witness :
    fieldValue false (-7) = .ok 7 ∧
    fieldValue false (-(2 ^ 31)) = .error "attempt to negate with overflow" := by
  constructor
  · have h := (unsigned_flag_abs_value (-7)).2.1 (by norm_num)
    simpa using h.1
  · exact (unsigned_flag_abs_value (-(2 ^ 31))).2.2.1 rfl

theorem isPrefixOf_comparable : ∀ (s p q : List Char),
    p.isPrefixOf s → q.isPrefixOf s → p.isPrefixOf q ∨ q.isPrefixOf p := by
  intro s
  induction s with
  | nil =>
    intro p q hp hq
    cases p with
    | nil => left; cases q <;> rfl
    | cons a as => simp [List.isPrefixOf] at hp
  | cons c cs ih =>
    intro p q hp hq
    cases p with
    | nil => left; cases q <;> rfl
    | cons a as =>
      cases q with
      | nil => right; rfl
      | cons b bs =>
        simp only [List.isPrefixOf, Bool.and_eq_true, beq_iff_eq] at hp hq ⊢
        obtain ⟨hac, hp'⟩ := hp
        obtain ⟨hbc, hq'⟩ := hq
        rcases ih as bs hp' hq' with h | h
        · left; exact ⟨hac.trans hbc.symm, h⟩
        · right; exact ⟨hbc.trans hac.symm, h⟩

theorem not_both_pfx {p q : List Char} (h1 : p.isPrefixOf q = false)
    (h2 : q.isPrefixOf p = false) :
    ∀ s, p.isPrefixOf s = true → q.isPrefixOf s = false := by
  intro s hp
  by_contra hq
  rw [Bool.not_eq_false] at hq
  rcases isPrefixOf_comparable s p q hp hq with h | h
  · rw [h1] at h; exact Bool.false_ne_true h
  · rw [h2] at h; exact Bool.false_ne_true h

/-- Final-value-wins fold over the header sequence: the shape shared by the
four attribute-list updates of `parse_field_definitions`, written abstractly
so its "value of the last matching line" reading can be proved once. -/
def lastUpd {α : Type} (p : List Char → Bool) (f : List Char → α)
    (headers : List (List Char)) (init : α) : α :=
  headers.foldl (fun x h => if p h then f h else x) init

theorem getLast?_cons {α : Type} (a : α) (l : List α) :
    (a :: l).getLast? = some ((l.getLast?).getD a) := by
  induction l generalizing a with
  | nil => rfl
  | cons b t ih =>
    rw [List.getLast?_cons_cons, ih b]
    cases h : (b :: t).getLast? with
    | none => rw [ih b] at h; simp at h
    | some x => rw [ih b] at h; simp at h; simp [h]

theorem lastUpd_eq_getLast {α : Type} (p : List Char → Bool) (f : List Char → α) :
    ∀ (headers : List (List Char)) (init : α),
      lastUpd p f headers init =
        match (headers.filter p).getLast? with
        | some h => f h
        | none => init := by
  intro headers
  induction headers with
  | nil => intro init; rfl
  | cons h t ih =>
    intro init
    have hstep : lastUpd p f (h :: t) init = lastUpd p f t (if p h then f h else init) := rfl
    rw [hstep, ih]
    by_cases hp : p h
    · simp only [List.filter_cons, if_pos hp, hp, if_true]
      cases hfp : t.filter p with
      | nil => simp
      | cons y ys => rw [List.getLast?_cons_cons, getLast?_cons y ys]
    · simp only [List.filter_cons, hp, Bool.false_eq_true, if_false]

theorem parseStep_fst (a : List (List Char) × List Nat × List Bool × List Nat)
    (h : List Char) :
    (parseStep a h).1 =
      if pfxName.isPrefixOf h then splitTrim (h.drop pfxName.length) else a.1 := by
  rw [parseStep]
  split_ifs <;> rfl

theorem parseStep_enc (a : List (List Char) × List Nat × List Bool × List Nat)
    (h : List Char) :
    (parseStep a h).2.1 =
      if !pfxName.isPrefixOf h && pfxEnc.isPrefixOf h then
        (splitTrim (h.drop pfxEnc.length)).map (fun s => (parseU8 s).getD 0)
      else a.2.1 := by
  rw [parseStep]
  cases h1 : pfxName.isPrefixOf h <;> cases h2 : pfxEnc.isPrefixOf h <;>
    simp only [h1, h2, Bool.not_true, Bool.not_false, Bool.true_and, Bool.false_and,
      Bool.and_true, Bool.and_false, if_true, if_false, Bool.false_eq_true, if_neg,
      Bool.true_eq_false] <;>
    split_ifs <;> rfl

theorem parseStep_sgn (a : List (List Char) × List Nat × List Bool × List Nat)
    (h : List Char) :
    (parseStep a h).2.2.1 =
      if !pfxName.isPrefixOf h && (!pfxEnc.isPrefixOf h && pfxSigned.isPrefixOf h) then
        (splitTrim (h.drop pfxSigned.length)).map (fun s => s == ['1'])
      else a.2.2.1 := by
  rw [parseStep]
  cases h1 : pfxName.isPrefixOf h <;> cases h2 : pfxEnc.isPrefixOf h <;>
    cases h3 : pfxSigned.isPrefixOf h <;>
    simp only [h1, h2, h3, Bool.not_true, Bool.not_false, Bool.true_and, Bool.false_and,
      Bool.and_true, Bool.and_false, if_true, if_false, Bool.false_eq_true, if_neg,
      Bool.true_eq_false] <;>
    split_ifs <;> rfl

theorem parseStep_pred (a : List (List Char) × List Nat × List Bool × List Nat)
    (h : List Char) :
    (parseStep a h).2.2.2 =
      if !pfxName.isPrefixOf h &&
          (!pfxEnc.isPrefixOf h && (!pfxSigned.isPrefixOf h && pfxPred.isPrefixOf h)) then
        (splitTrim (h.drop pfxPred.length)).map (fun s => (parseU8 s).getD 0)
      else a.2.2.2 := by
  rw [parseStep]
  cases h1 : pfxName.isPrefixOf h <;> cases h2 : pfxEnc.isPrefixOf h <;>
    cases h3 : pfxSigned.isPrefixOf h <;> cases h4 : pfxPred.isPrefixOf h <;>
    simp only [h1, h2, h3, h4, Bool.not_true, Bool.not_false, Bool.true_and, Bool.false_and,
      Bool.and_true, Bool.and_false, if_true, if_false, Bool.false_eq_true, if_neg,
      Bool.true_eq_false] <;>
    split_ifs <;> rfl

theorem foldl_parseStep_fst : ∀ (headers : List (List Char))
    (a : List (List Char) × List Nat × List Bool × List Nat),
    (headers.foldl parseStep a).1 =
      lastUpd (fun h => pfxName.isPrefixOf h)
        (fun h => splitTrim (h.drop pfxName.length)) headers a.1 := by
  intro headers
  induction headers with
  | nil => intro a; rfl
  | cons h t ih =>
    intro a
    rw [List.foldl_cons, ih, parseStep_fst]
    rfl

theorem foldl_parseStep_enc : ∀ (headers : List (List Char))
    (a : List (List Char) × List Nat × List Bool × List Nat),
    (headers.foldl parseStep a).2.1 =
      lastUpd (fun h => !pfxName.isPrefixOf h && pfxEnc.isPrefixOf h)
        (fun h => (splitTrim (h.drop pfxEnc.length)).map (fun s => (parseU8 s).getD 0))
        headers a.2.1 := by
  intro headers
  induction headers with
  | nil => intro a; rfl
  | cons h t ih =>
    intro a
    rw [List.foldl_cons, ih, parseStep_enc]
    rfl

theorem foldl_parseStep_sgn : ∀ (headers : List (List Char))
    (a : List (List Char) × List Nat × List Bool × List Nat),
    (headers.foldl parseStep a).2.2.1 =
      lastUpd (fun h => !pfxName.isPrefixOf h && (!pfxEnc.isPrefixOf h && pfxSigned.isPrefixOf h))
        (fun h => (splitTrim (h.drop pfxSigned.length)).map (fun s => s == ['1']))
        headers a.2.2.1 := by
  intro headers
  induction headers with
  | nil => intro a; rfl
  | cons h t ih =>
    intro a
    rw [List.foldl_cons, ih, parseStep_sgn]
    rfl

theorem foldl_parseStep_pred : ∀ (headers : List (List Char))
    (a : List (List Char) × List Nat × List Bool × List Nat),
    (headers.foldl parseStep a).2.2.2 =
      lastUpd (fun h => !pfxName.isPrefixOf h &&
          (!pfxEnc.isPrefixOf h && (!pfxSigned.isPrefixOf h && pfxPred.isPrefixOf h)))
        (fun h => (splitTrim (h.drop pfxPred.length)).map (fun s => (parseU8 s).getD 0))
        headers a.2.2.2 := by
  intro headers
  induction headers with
  | nil => intro a; rfl
  | cons h t ih =>
    intro a
    rw [List.foldl_cons, ih, parseStep_pred]
    rfl

theorem guard_enc_eq :
    (fun h => !pfxName.isPrefixOf h && pfxEnc.isPrefixOf h) =
      (fun h => pfxEnc.isPrefixOf h) := by
  funext h
  cases h2 : pfxEnc.isPrefixOf h
  · simp
  · have h1 : pfxName.isPrefixOf h = false :=
      not_both_pfx (p := pfxEnc) (q := pfxName) (by decide) (by decide) h h2
    simp [h1]

theorem guard_sgn_eq :
    (fun h => !pfxName.isPrefixOf h && (!pfxEnc.isPrefixOf h && pfxSigned.isPrefixOf h)) =
      (fun h => pfxSigned.isPrefixOf h) := by
  funext h
  cases h3 : pfxSigned.isPrefixOf h
  · simp
  · have h1 : pfxName.isPrefixOf h = false :=
      not_both_pfx (p := pfxSigned) (q := pfxName) (by decide) (by decide) h h3
    have h2 : pfxEnc.isPrefixOf h = false :=
      not_both_pfx (p := pfxSigned) (q := pfxEnc) (by decide) (by decide) h h3
    simp [h1, h2]

theorem guard_pred_eq :
    (fun h => !pfxName.isPrefixOf h &&
        (!pfxEnc.isPrefixOf h && (!pfxSigned.isPrefixOf h && pfxPred.isPrefixOf h))) =
      (fun h => pfxPred.isPrefixOf h) := by
  funext h
  cases h4 : pfxPred.isPrefixOf h
  · simp
  · have h1 : pfxName.isPrefixOf h = false :=
      not_both_pfx (p := pfxPred) (q := pfxName) (by decide) (by decide) h h4
    have h2 : pfxEnc.isPrefixOf h = false :=
      not_both_pfx (p := pfxPred) (q := pfxEnc) (by decide) (by decide) h h4
    have h3 : pfxSigned.isPrefixOf h = false :=
      not_both_pfx (p := pfxPred) (q := pfxSigned) (by decide) (by decide) h h4
    simp [h1, h2, h3]

theorem parseHeaderLists_names (headers : List (List Char)) :
    (parseHeaderLists headers).1 =
      match (headers.filter (fun h => pfxName.isPrefixOf h)).getLast? with
      | some l => splitTrim (l.drop pfxName.length)
      | none => [] := by
  rw [parseHeaderLists, foldl_parseStep_fst, lastUpd_eq_getLast]

theorem parseHeaderLists_encs (headers : List (List Char)) :
    (parseHeaderLists headers).2.1 =
      match (headers.filter (fun h => pfxEnc.isPrefixOf h)).getLast? with
      | some l => (splitTrim (l.drop pfxEnc.length)).map (fun s => (parseU8 s).getD 0)
      | none => [] := by
  rw [parseHeaderLists, foldl_parseStep_enc, guard_enc_eq, lastUpd_eq_getLast]

theorem parseHeaderLists_sgns (headers : List (List Char)) :
    (parseHeaderLists headers).2.2.1 =
      match (headers.filter (fun h => pfxSigned.isPrefixOf h)).getLast? with
      | some l => (splitTrim (l.drop pfxSigned.length)).map (fun s => s == ['1'])
      | none => [] := by
  rw [parseHeaderLists, foldl_parseStep_sgn, guard_sgn_eq, lastUpd_eq_getLast]

theorem parseHeaderLists_preds (headers : List (List Char)) :
    (parseHeaderLists headers).2.2.2 =
      match (headers.filter (fun h => pfxPred.isPrefixOf h)).getLast? with
      | some l => (splitTrim (l.drop pfxPred.length)).map (fun s => (parseU8 s).getD 0)
      | none => [] := by
  rw [parseHeaderLists, foldl_parseStep_pred, guard_pred_eq, lastUpd_eq_getLast]

theorem combineFields_length (encs : List Nat) (sgns : List Bool) (preds : List Nat) :
    ∀ (ns : List (List Char)) (k : Nat),
      (combineFields encs sgns preds ns k).length = ns.length := by
  intro ns
  induction ns with
  | nil => intro k; rfl
  | cons n rest ih =>
    intro k
    simp only [combineFields, List.length_cons, ih]

theorem combineFields_getElem? (encs : List Nat) (sgns : List Bool) (preds : List Nat) :
    ∀ (ns : List (List Char)) (k i : Nat),
      (combineFields encs sgns preds ns k)[i]? =
        (ns[i]?).map (fun n =>
          { name := n, encoding := encs.getD (k + i) 0, signed := sgns.getD (k + i) false,
            predictor := preds.getD (k + i) 0 : FieldDefinition }) := by
  intro ns
  induction ns with
  | nil => intro k i; rfl
  | cons n rest ih =>
    intro k i
    cases i with
    | zero => simp [combineFields]
    | succ j =>
      simp only [combineFields, List.getElem?_cons_succ]
      rw [ih (k + 1) j]
      have hk : k + 1 + j = k + (j + 1) := by omega
      rw [hk]

/-- C6: for every header sequence, the schema built by
`parse_field_definitions` has exactly as many `FieldDefinition`s as the
parsed name list has entries, and every index — in particular any index
beyond the end of the encoding, signed, or predictor list — receives its
attributes by the total `Option`-returning lookup `getD` with defaults
encoding 0, signed false, predictor 0, so no out-of-bounds indexing can
occur. -/
theorem parse_field_definitions_length_defaults (headers : List (List Char)) :
    (parse_field_definitions headers).length = (parseHeaderLists headers).1.length ∧
    ∀ (i : Nat) (n : List Char), (parseHeaderLists headers).1[i]? = some n →
      (parse_field_definitions headers)[i]? = some
        { name := n, encoding := (parseHeaderLists headers).2.1.getD i 0,
          signed := (parseHeaderLists headers).2.2.1.getD i false,
          predictor := (parseHeaderLists headers).2.2.2.getD i 0 } := by
  constructor
  · rw [parse_field_definitions, combineFields_length]
  · intro i n hn
    rw [parse_field_definitions, combineFields_getElem?]
    simp only [Nat.zero_add, hn]
    rfl

/-- C6 witness: with a two-name line and a one-entry encoding line, index 1
lies beyond every attribute list and gets the all-default definition. -/
theorem parse_field_definitions_length_defaults_witness :
    (parse_field_definitions
        [String.toList "H Field I name:a,b", String.toList "H Field I encoding:1"])[1]? =
      some { name := ['b'], encoding := 0, signed := false, predictor := 0 } :=
  (parse_field_definitions_length_defaults
      [String.toList "H Field I name:a,b", String.toList "H Field I encoding:1"]).2
    1 ['b'] rfl

/-- C5 counterexample: with a header sequence containing a field-name line
but no encoding line, schema construction succeeds with the defaults, but
binary-record decoding does **not** complete normally: `decode_binary_data`
re-derives the attribute lines itself with `.find(..).expect(..)` and panics
"H Field I encoding: header not found" — contradicting the claim that an
entirely absent encoding line is never fatal. -/
theorem decode_binary_data_panics_without_encoding_line :
    decode_binary_data 1 [0] [] [] [String.toList "H Field I name:a"] =
      .panic "H Field I encoding: header not found" ∧
    parse_field_definitions [String.toList "H Field I name:a"] =
      [{ name := ['a'], encoding := 0, signed := false, predictor := 0 }] :=
  ⟨rfl, rfl⟩

theorem filter_eq_nil_of_find?_none {p : List Char → Bool} {headers : List (List Char)}
    (h : headers.find? p = none) : headers.filter p = [] :=
  List.filter_eq_nil_iff.mpr (fun a ha => List.find?_eq_none.mp h a ha)

theorem parse_field_definitions_entry (headers : List (List Char)) (i : Nat)
    (f : FieldDefinition) (hf : (parse_field_definitions headers)[i]? = some f) :
    f.encoding = (parseHeaderLists headers).2.1.getD i 0 ∧
    f.signed = (parseHeaderLists headers).2.2.1.getD i false ∧
    f.predictor = (parseHeaderLists headers).2.2.2.getD i 0 := by
  rw [parse_field_definitions, combineFields_getElem?] at hf
  cases hn : (parseHeaderLists headers).1[i]? with
  | none => rw [hn] at hf; simp at hf
  | some n =>
    rw [hn] at hf
    simp only [Option.map_some', Option.some.injEq] at hf
    rw [← hf]
    simp

theorem parse_encoding_zero_of_absent_line (headers : List (List Char))
    (he : headers.find? (fun h => pfxEnc.isPrefixOf h) = none) :
    ∀ f ∈ parse_field_definitions headers, f.encoding = 0 := by
  intro f hf
  obtain ⟨i, hi⟩ := List.mem_iff_getElem?.mp hf
  have hfe := (parse_field_definitions_entry headers i f hi).1
  rw [parseHeaderLists_encs, filter_eq_nil_of_find?_none he] at hfe
  simpa [List.getD] using hfe

theorem parse_signed_false_of_absent_line (headers : List (List Char))
    (hsg : headers.find? (fun h => pfxSigned.isPrefixOf h) = none) :
    ∀ f ∈ parse_field_definitions headers, f.signed = false := by
  intro f hf
  obtain ⟨i, hi⟩ := List.mem_iff_getElem?.mp hf
  have hfe := (parse_field_definitions_entry headers i f hi).2.1
  rw [parseHeaderLists_sgns, filter_eq_nil_of_find?_none hsg] at hfe
  simpa [List.getD] using hfe

theorem parse_predictor_zero_of_absent_line (headers : List (List Char))
    (hpd : headers.find? (fun h => pfxPred.isPrefixOf h) = none) :
    ∀ f ∈ parse_field_definitions headers, f.predictor = 0 := by
  intro f hf
  obtain ⟨i, hi⟩ := List.mem_iff_getElem?.mp hf
  have hfe := (parse_field_definitions_entry headers i f hi).2.2
  rw [parseHeaderLists_preds, filter_eq_nil_of_find?_none hpd] at hfe
  simpa [List.getD] using hfe

theorem parse_encoding_zero_of_unparsable_entry (headers : List (List Char))
    (el : List Char) (i : Nat) (s : List Char) (f : FieldDefinition)
    (hel : (headers.filter (fun h => pfxEnc.isPrefixOf h)).getLast? = some el)
    (hsi : (splitTrim (el.drop pfxEnc.length))[i]? = some s)
    (hps : parseU8 s = none)
    (hf : (parse_field_definitions headers)[i]? = some f) :
    f.encoding = 0 := by
  have hfe := (parse_field_definitions_entry headers i f hf).1
  rw [parseHeaderLists_encs, hel, List.getD_eq_getElem?_getD, List.getElem?_map, hsi] at hfe
  simpa [hps] using hfe

theorem parse_signed_false_of_nonone_entry (headers : List (List Char))
    (sl : List Char) (i : Nat) (s : List Char) (f : FieldDefinition)
    (hsl : (headers.filter (fun h => pfxSigned.isPrefixOf h)).getLast? = some sl)
    (hsi : (splitTrim (sl.drop pfxSigned.length))[i]? = some s)
    (hne : s ≠ ['1'])
    (hf : (parse_field_definitions headers)[i]? = some f) :
    f.signed = false := by
  have hfe := (parse_field_definitions_entry headers i f hf).2.1
  rw [parseHeaderLists_sgns, hsl, List.getD_eq_getElem?_getD, List.getElem?_map, hsi] at hfe
  simpa [beq_eq_false_iff_ne.mpr hne] using hfe

theorem parse_predictor_zero_of_unparsable_entry (headers : List (List Char))
    (pl : List Char) (i : Nat) (s : List Char) (f : FieldDefinition)
    (hpl : (headers.filter (fun h => pfxPred.isPrefixOf h)).getLast? = some pl)
    (hsi : (splitTrim (pl.drop pfxPred.length))[i]? = some s)
    (hps : parseU8 s = none)
    (hf : (parse_field_definitions headers)[i]? = some f) :
    f.predictor = 0 := by
  have hfe := (parse_field_definitions_entry headers i f hf).2.2
  rw [parseHeaderLists_preds, hpl, List.getD_eq_getElem?_getD, List.getElem?_map, hsi] at hfe
  simpa [hps] using hfe

theorem decodeFields_unparsable_encoding_step
    (data : List Nat) (names encs sgns preds : List (List Char))
    (fm : List (List Char × FieldDefinition)) (fname : List Char)
    (rest : List (List Char)) (cursor : Nat) (record : List Int) (index : Nat)
    (hfi : List.findIdx? (fun r => r == fname) names = some index)
    (he : index < encs.length) (hsg : index < sgns.length) (hpd : index < preds.length)
    (hu : parseU8 (encs.get ⟨index, he⟩) = none) :
    decodeFields data names encs sgns preds fm (fname :: rest) cursor record =
      match hashMapGet fm fname with
      | none => .ok (record, false, cursor)
      | some _f =>
        if cursor + 1 > data.length then .ok (record, false, cursor)
        else
          match read_signed_vlq data cursor with
          | .ok (val, cursor') =>
            match fieldValue (sgns.get ⟨index, hsg⟩ == ['1']) val with
            | .ok v => decodeFields data names encs sgns preds fm rest cursor' (record ++ [v])
            | .error e => .error e
          | .error e => .error e := by
  simp only [decodeFields, hfi]
  rw [dif_pos he, dif_pos hsg, dif_pos hpd]
  simp only [hu, Option.getD_none]

/-- C5 (amended): for every header sequence, (a) schema construction never
fails — an entirely absent encoding, signed, or predictor line leaves every
field at that attribute's default (encoding 0, signed false, predictor 0),
and a malformed entry in a present (last-matching) line is defaulted
likewise: an unparsable encoding or predictor entry yields 0 and a signed
entry other than `"1"` yields false; (b) binary-record decoding, by
contrast, re-derives the attribute lines itself with `.find(..).expect(..)`
and panics whenever the name, encoding, signed, or predictor line is
entirely absent (checked in that order); (c) a malformed present encoding
entry is not fatal to decoding either: the per-record parse defaults it with
`unwrap_or(0)`, so the field is decoded exactly as encoding 0 (signed VLQ)
rather than panicking or invalidating the record. -/
theorem schema_defaults_but_decode_requires_lines (headers : List (List Char)) :
    (headers.find? (fun h => pfxEnc.isPrefixOf h) = none →
      ∀ f ∈ parse_field_definitions headers, f.encoding = 0) ∧
    (headers.find? (fun h => pfxSigned.isPrefixOf h) = none →
      ∀ f ∈ parse_field_definitions headers, f.signed = false) ∧
    (headers.find? (fun h => pfxPred.isPrefixOf h) = none →
      ∀ f ∈ parse_field_definitions headers, f.predictor = 0) ∧
    (∀ (el : List Char) (i : Nat) (s : List Char) (f : FieldDefinition),
      (headers.filter (fun h => pfxEnc.isPrefixOf h)).getLast? = some el →
      (splitTrim (el.drop pfxEnc.length))[i]? = some s → parseU8 s = none →
      (parse_field_definitions headers)[i]? = some f → f.encoding = 0) ∧
    (∀ (sl : List Char) (i : Nat) (s : List Char) (f : FieldDefinition),
      (headers.filter (fun h => pfxSigned.isPrefixOf h)).getLast? = some sl →
      (splitTrim (sl.drop pfxSigned.length))[i]? = some s → s ≠ ['1'] →
      (parse_field_definitions headers)[i]? = some f → f.signed = false) ∧
    (∀ (pl : List Char) (i : Nat) (s : List Char) (f : FieldDefinition),
      (headers.filter (fun h => pfxPred.isPrefixOf h)).getLast? = some pl →
      (splitTrim (pl.drop pfxPred.length))[i]? = some s → parseU8 s = none →
      (parse_field_definitions headers)[i]? = some f → f.predictor = 0) ∧
    (∀ (fuel : Nat) (data : List Nat) (fm : List (List Char × FieldDefinition))
        (desired : List (List Char)),
      (headers.find? (fun h => pfxName.isPrefixOf h) = none →
        decode_binary_data fuel data fm desired headers =
          .panic "H Field I name: header not found") ∧
      (∀ nl : List Char, headers.find? (fun h => pfxName.isPrefixOf h) = some nl →
        headers.find? (fun h => pfxEnc.isPrefixOf h) = none →
        decode_binary_data fuel data fm desired headers =
          .panic "H Field I encoding: header not found") ∧
      (∀ nl el : List Char, headers.find? (fun h => pfxName.isPrefixOf h) = some nl →
        headers.find? (fun h => pfxEnc.isPrefixOf h) = some el →
        headers.find? (fun h => pfxSigned.isPrefixOf h) = none →
        decode_binary_data fuel data fm desired headers =
          .panic "H Field I signed: header not found") ∧
      (∀ nl el sl : List Char, headers.find? (fun h => pfxName.isPrefixOf h) = some nl →
        headers.find? (fun h => pfxEnc.isPrefixOf h) = some el →
        headers.find? (fun h => pfxSigned.isPrefixOf h) = some sl →
        headers.find? (fun h => pfxPred.isPrefixOf h) = none →
        decode_binary_data fuel data fm desired headers =
          .panic "H Field I predictor: header not found")) ∧
    (∀ (data : List Nat) (names encs sgns preds : List (List Char))
        (fm : List (List Char × FieldDefinition)) (fname : List Char)
        (rest : List (List Char)) (cursor : Nat) (record : List Int) (index : Nat)
        (hfi : List.findIdx? (fun r => r == fname) names = some index)
        (he : index < encs.length) (hsg : index < sgns.length) (hpd : index < preds.length),
      parseU8 (encs.get ⟨index, he⟩) = none →
      decodeFields data names encs sgns preds fm (fname :: rest) cursor record =
        match hashMapGet fm fname with
        | none => .ok (record, false, cursor)
        | some _f =>
          if cursor + 1 > data.length then .ok (record, false, cursor)
          else
            match read_signed_vlq data cursor with
            | .ok (val, cursor') =>
              match fieldValue (sgns.get ⟨index, hsg⟩ == ['1']) val with
              | .ok v =>
                decodeFields data names encs sgns preds fm rest cursor' (record ++ [v])
              | .error e => .error e
            | .error e => .error e) := by
  refine ⟨parse_encoding_zero_of_absent_line headers,
    parse_signed_false_of_absent_line headers,
    parse_predictor_zero_of_absent_line headers,
    parse_encoding_zero_of_unparsable_entry headers,
    parse_signed_false_of_nonone_entry headers,
    parse_predictor_zero_of_unparsable_entry headers,
    ?_, decodeFields_unparsable_encoding_step⟩
  intro fuel data fm desired
  refine ⟨?_, ?_, ?_, ?_⟩
  · intro hn
    rw [decode_binary_data, hn]
  · intro nl hn he
    rw [decode_binary_data, hn, he]
  · intro nl el hn he hsg
    rw [decode_binary_data, hn, he, hsg]
  · intro nl el sl hn he hsg hpd
    rw [decode_binary_data, hn, he, hsg, hpd]

/-- C5 witness: instantiation of the amended claim at concrete inputs — the
absent-encoding-line schema default, the absent-signed-line decode panic,
the schema default for the unparsable encoding entry `"x"`, and the decode
step on an unparsable encoding entry (field map empty, so the record is
invalidated without a panic). -/
theorem schema_defaults_but_decode_requires_lines_witness :
    (∀ f ∈ parse_field_definitions [String.toList "H Field I name:a"], f.encoding = 0) ∧
    decode_binary_data 3 [1, 2] [] [['a']]
        [String.toList "H Field I name:a", String.toList "H Field I encoding:0"] =
      .panic "H Field I signed: header not found" ∧
    ({ name := ['a'], encoding := 0, signed := false, predictor := 0 } : FieldDefinition).encoding = 0 ∧
    decodeFields [5] [['a']] [['x']] [['0']] [['0']] [] [['a']] 0 [] =
      .ok ([], false, 0) :=
  ⟨(schema_defaults_but_decode_requires_lines [String.toList "H Field I name:a"]).1 rfl,
    ((schema_defaults_but_decode_requires_lines
        [String.toList "H Field I name:a", String.toList "H Field I encoding:0"]).2.2.2.2.2.2.1
      3 [1, 2] [] [['a']]).2.2.1 (String.toList "H Field I name:a")
      (String.toList "H Field I encoding:0") rfl rfl rfl,
    (schema_defaults_but_decode_requires_lines
        [String.toList "H Field I name:a", String.toList "H Field I encoding:x"]).2.2.2.1
      (String.toList "H Field I encoding:x") 0 ['x']
      { name := ['a'], encoding := 0, signed := false, predictor := 0 } rfl rfl rfl rfl,
    (schema_defaults_but_decode_requires_lines []).2.2.2.2.2.2.2
      [5] [['a']] [['x']] [['0']] [['0']] [] ['a'] [] 0 [] 0
      rfl (by decide) (by decide) (by decide) rfl⟩

/-- C7 counterexample: with duplicate `H Field I encoding:` lines — first
`1` (unsigned VLQ), last `0` (signed VLQ) — the schema built by
`parse_field_definitions` carries the *last* line's encoding 0, but
`decode_binary_data` decodes the payload byte `0x03` with the *first* line's
encoding 1, yielding the record value 3 (unsigned); under the claimed
last-value-wins lookup it would decode signed (`0x03 ↦ -1`, then `abs ↦ 1`)
and yield 1.  So per-record decoding does not use the last matching line. -/
theorem decode_binary_data_uses_first_line_cex :
    decode_binary_data 2 [0x03]
        (mkFieldMap (parse_field_definitions
          [String.toList "H Field I name:a", String.toList "H Field I encoding:1",
            String.toList "H Field I encoding:0", String.toList "H Field I signed:0",
            String.toList "H Field I predictor:0"]))
        [['a']]
        [String.toList "H Field I name:a", String.toList "H Field I encoding:1",
          String.toList "H Field I encoding:0", String.toList "H Field I signed:0",
          String.toList "H Field I predictor:0"] = .ok [[3]] ∧
    parse_field_definitions
        [String.toList "H Field I name:a", String.toList "H Field I encoding:1",
          String.toList "H Field I encoding:0", String.toList "H Field I signed:0",
          String.toList "H Field I predictor:0"] =
      [{ name := ['a'], encoding := 0, signed := false, predictor := 0 }] ∧
    RunOut.ok [[3]] ≠ (.ok [[1]] : RunOut (List (List Int))) :=
  ⟨rfl, rfl, by decide⟩

/-- C7 (amended): duplicate attribute-prefix lines are resolved differently
by the two components.  Schema construction (`parse_field_definitions`)
takes each attribute list from the **last** header line matching its prefix
(final-value-wins over the linear header loop); but `decode_binary_data`'s
own per-record re-derivation uses `Iterator::find`, i.e. the **first**
matching line for each of the four prefixes, so the values used for
per-record decoding come from the first match, not the last. -/
theorem last_wins_schema_first_wins_decode (headers : List (List Char)) :
    ((parseHeaderLists headers).1 =
      match (headers.filter (fun h => pfxName.isPrefixOf h)).getLast? with
      | some l => splitTrim (l.drop pfxName.length)
      | none => []) ∧
    ((parseHeaderLists headers).2.1 =
      match (headers.filter (fun h => pfxEnc.isPrefixOf h)).getLast? with
      | some l => (splitTrim (l.drop pfxEnc.length)).map (fun s => (parseU8 s).getD 0)
      | none => []) ∧
    ((parseHeaderLists headers).2.2.1 =
      match (headers.filter (fun h => pfxSigned.isPrefixOf h)).getLast? with
      | some l => (splitTrim (l.drop pfxSigned.length)).map (fun s => s == ['1'])
      | none => []) ∧
    ((parseHeaderLists headers).2.2.2 =
      match (headers.filter (fun h => pfxPred.isPrefixOf h)).getLast? with
      | some l => (splitTrim (l.drop pfxPred.length)).map (fun s => (parseU8 s).getD 0)
      | none => []) ∧
    (∀ (fuel : Nat) (data : List Nat) (fm : List (List Char × FieldDefinition))
        (desired : List (List Char)) (nl el sl pl : List Char),
      headers.find? (fun h => pfxName.isPrefixOf h) = some nl →
      headers.find? (fun h => pfxEnc.isPrefixOf h) = some el →
      headers.find? (fun h => pfxSigned.isPrefixOf h) = some sl →
      headers.find? (fun h => pfxPred.isPrefixOf h) = some pl →
      decode_binary_data fuel data fm desired headers =
        decodeLoop data (splitTrim (nl.drop pfxName.length))
          (splitTrim (el.drop pfxEnc.length)) (splitTrim (sl.drop pfxSigned.length))
          (splitTrim (pl.drop pfxPred.length)) fm desired fuel 0 []) := by
  refine ⟨parseHeaderLists_names headers, parseHeaderLists_encs headers,
    parseHeaderLists_sgns headers, parseHeaderLists_preds headers, ?_⟩
  intro fuel data fm desired nl el sl pl hn he hs hp
  rw [decode_binary_data, hn, he, hs, hp]

/-- C7 witness: instantiation of the amended claim at the duplicate-line
header sequence; the decode side uses the first encoding line `1`. -/
theorem last_wins_schema_first_wins_decode_witness :
    decode_binary_data 2 [0x03] [] [['a']]
        [String.toList "H Field I name:a", String.toList "H Field I encoding:1",
          String.toList "H Field I encoding:0", String.toList "H Field I signed:0",
          String.toList "H Field I predictor:0"] =
      decodeLoop [0x03] (splitTrim ((String.toList "H Field I name:a").drop pfxName.length))
        (splitTrim ((String.toList "H Field I encoding:1").drop pfxEnc.length))
        (splitTrim ((String.toList "H Field I signed:0").drop pfxSigned.length))
        (splitTrim ((String.toList "H Field I predictor:0").drop pfxPred.length))
        [] [['a']] 2 0 [] :=
  (last_wins_schema_first_wins_decode
      [String.toList "H Field I name:a", String.toList "H Field I encoding:1",
        String.toList "H Field I encoding:0", String.toList "H Field I signed:0",
        String.toList "H Field I predictor:0"]).2.2.2.2 2 [0x03] [] [['a']]
    (String.toList "H Field I name:a") (String.toList "H Field I encoding:1")
    (String.toList "H Field I signed:0") (String.toList "H Field I predictor:0")
    rfl rfl rfl rfl

theorem decodeLoop_missing_field_spin :
    ∀ (fm : List (List Char × FieldDefinition)) (n : Nat),
      decodeLoop [0x00] [['b']] [['0']] [['0']] [['0']] fm [['a']] n 0 [] = .spin := by
  intro fm n
  induction n with
  | zero => rfl
  | succ m ih =>
    have hstep : decodeLoop [0x00] [['b']] [['0']] [['0']] [['0']] fm [['a']] (m + 1) 0 [] =
        decodeLoop [0x00] [['b']] [['0']] [['0']] [['0']] fm [['a']] m 0 [] := rfl
    rw [hstep, ih]

/-- C1: the record-decoding `while` loop of `decode_binary_data` does *not*
terminate for every payload and schema.  When the first desired field name is
absent from the schema's name list (and likewise when its encoding code is
neither 0 nor 1), the record is invalidated without consuming any byte and
without exiting the loop, so the loop re-runs forever from the same cursor:
with a one-byte payload, a schema naming only `b`, and desired field `a`,
the run is `spin` for every fuel — an infinite loop, contradicting the
claim that each iteration advances the cursor or exits. -/
theorem decode_binary_data_spins_on_missing_field (fuel : Nat) :
    decode_binary_data fuel [0x00]
        (mkFieldMap (parse_field_definitions
          [String.toList "H Field I name:b", String.toList "H Field I encoding:0",
            String.toList "H Field I signed:0", String.toList "H Field I predictor:0"]))
        [['a']]
        [String.toList "H Field I name:b", String.toList "H Field I encoding:0",
          String.toList "H Field I signed:0", String.toList "H Field I predictor:0"] =
      .spin :=
  decodeLoop_missing_field_spin _ fuel

/-- C2: the failing line is *not* handed to the record decoder.  On input
`"A\n"` followed by the non-ASCII line `\xC8\n` and the byte `B\n`, the
header scan stores header `"A"`, then reads the line `[0xC8, 0x0A]`,
classifies it as binary and `break`s — but those bytes were already consumed
from the reader, so the payload read afterwards is only `[0x42, 0x0A]`.  The
claim that the payload starts with the failing line's bytes (payload
`[0xC8, 0x0A, 0x42, 0x0A]`, no byte dropped) is false: the failing line's
two bytes are dropped. -/
theorem headerScan_drops_failing_line :
    headerScan [0x41, 0x0A, 0xC8, 0x0A, 0x42, 0x0A] = ([['A']], [0x42, 0x0A]) ∧
    (headerScan [0x41, 0x0A, 0xC8, 0x0A, 0x42, 0x0A]).2 ≠ [0xC8, 0x0A, 0x42, 0x0A] := by
  have h : headerScan [0x41, 0x0A, 0xC8, 0x0A, 0x42, 0x0A] = ([['A']], [0x42, 0x0A]) := by
    simp [headerScan, readLine, trimL, isWS]
  exact ⟨h, by rw [h]; decide⟩

/-- C9: the header scan is *not* idempotent.  Because the failing line's
bytes are consumed and dropped (see `headerScan_drops_failing_line`), the
returned payload can itself start with an all-ASCII line: re-scanning the
payload `[0x42, 0x0A]` of the input below classifies its first line `"B\n"`
as a header, yielding one additional header line instead of zero. -/
theorem headerScan_not_idempotent :
    (headerScan (headerScan [0x41, 0x0A, 0xC8, 0x0A, 0x42, 0x0A]).2).1 = [['B']] ∧
    ([['B']] : List (List Char)) ≠ [] := by
  have h : headerScan [0x41, 0x0A, 0xC8, 0x0A, 0x42, 0x0A] = ([['A']], [0x42, 0x0A]) := by
    simp [headerScan, readLine, trimL, isWS]
  rw [h]
  constructor
  · simp [headerScan, readLine, trimL, isWS]
  · decide

/-- C3 witness: the round trip at `v = -1`: zig-zag gives 3, one encoded
byte `0x03`, and decoding returns `-1` consuming that byte. -/
theorem signed_vlq_roundtrip_witness :
    (-(2 ^ 31) : Int) < -1 ∧ (-1 : Int) < 2 ^ 31 ∧
    read_signed_vlq (encode_signed_vlq (-1)) 0 =
      .ok (-1, (encode_signed_vlq (-1)).length) :=
  ⟨by norm_num, by norm_num, signed_vlq_roundtrip (-1) (by norm_num) (by norm_num)⟩
